import Mathlib

/-
  A shallow embedding of the CXXCopyElision function pass
  (src/llvm/lib/Transforms/Scalar/CXXCopyElision.cpp).

  The instruction graph of one function is modelled as an association list
  from value ids to values.  A value carries its kind and the ordered list
  of its operand ids; consumer (user) sets are derived as reverse edges.
  Control-flow reachability is an external query of the hosting
  infrastructure (spec section 6) and is therefore passed in as an
  abstract boolean relation on instruction ids.

  Undefined behaviour of the C++ source (a dereference of a null pointer,
  an out-of-range operand access, a dangling candidate pointer) is made
  explicit with the Outcome type: Outcome.crashed marks an execution that
  has left the defined fragment of the source.
-/

namespace CXXCopyElision

/-- Result of running a fragment of the pass: either a defined value or a
crash marking undefined behaviour of the C++ source. -/
inductive Outcome (α : Type) where
  | crashed : Outcome α
  | done : α → Outcome α
deriving DecidableEq

/-- The intrinsic ids the pass inspects: the two lifetime bracket markers
and a stand-in for every other intrinsic. -/
inductive IntrinsicID where
  | lifetime_start : IntrinsicID
  | lifetime_end : IntrinsicID
  | otherIntrinsic : IntrinsicID
deriving DecidableEq

/-- Kinds of values.  The first six are instructions; argument, global and
constant are non-instruction values.  A call base (plain call or intrinsic
call) carries the copy/move-constructor-or-destructor tag, which models the
isCxxCMCtorOrDtor flag of the repository.  Modelled from the spec: the call
classifier (spec section 4.2) disambiguates the shared tag solely by the
number of object arguments. -/
inductive ValueKind where
  | alloca : ValueKind
  | bitcast : ValueKind
  | gep : ValueKind
  | intrinsic : IntrinsicID → Bool → ValueKind
  | call : Bool → ValueKind
  | otherInst : ValueKind
  | argument : ValueKind
  | globalVar : ValueKind
  | constantVal : ValueKind
deriving DecidableEq

/-- A value: its kind and the ordered ids of its operands.  For a call the
operand list is the argument list. -/
structure Value where
  kind : ValueKind
  ops : List Nat
deriving DecidableEq

/-- The instruction graph of one function, in program order. -/
abbrev Graph := List (Nat × Value)

/-- Look a value up by id. -/
def lookupV : Graph → Nat → Option Value
  | [], _ => none
  | p :: rest, i => if p.1 = i then some p.2 else lookupV rest i

/-- The consumers of value x: one entry per use, in graph order.  This is
the reverse-edge view the source walks with users(). -/
def users : Graph → Nat → List Nat
  | [], _ => []
  | p :: rest, x =>
      List.replicate (p.2.ops.filter (fun o => o == x)).length p.1 ++ users rest x

/-- Number of uses of a value, counting multiplicity (getNumUses). -/
def numUses (g : Graph) (x : Nat) : Nat := (users g x).length

/-- Instruction test: dyn_cast to Instruction succeeds. -/
def isInstructionKind : ValueKind → Bool
  | .argument => false
  | .globalVar => false
  | .constantVal => false
  | _ => true

/-- Call-base test: dyn_cast to CallBase succeeds. -/
def isCallBaseKind : ValueKind → Bool
  | .intrinsic _ _ => true
  | .call _ => true
  | _ => false

/-- The copy/move-constructor-or-destructor tag of a call base. -/
def isCxxCMCtorOrDtorTag (v : Value) : Bool :=
  match v.kind with
  | .intrinsic _ t => t
  | .call t => t
  | _ => false

/-- Source isCxxCMCtor on a call base: the shared tag plus exactly two
object arguments. -/
def isCxxCMCtorCB (v : Value) : Bool :=
  isCxxCMCtorOrDtorTag v && decide (v.ops.length = 2)

/-- Source isCxxDtor on a call base: the shared tag plus exactly one
object argument. -/
def isCxxDtorCB (v : Value) : Bool :=
  isCxxCMCtorOrDtorTag v && decide (v.ops.length = 1)

/-- Source isCxxDtor on an instruction: dyn_cast to CallBase, then the
call-base test. -/
def isCxxDtorI (v : Value) : Bool :=
  isCallBaseKind v.kind && isCxxDtorCB v

/-- True when the id is bound to a lifetime start or end intrinsic. -/
def isLifetimeMarkerAt (g : Graph) (i : Nat) : Bool :=
  match lookupV g i with
  | some v =>
      match v.kind with
      | .intrinsic .lifetime_start _ => true
      | .intrinsic .lifetime_end _ => true
      | _ => false
  | _ => false

/-- Modelled from the spec: the value-tracking helper
onlyUsedByLifetimeMarkers, whose body is not among the sources; per its
name and the trivial-chain absorption property (spec section 8) it holds
exactly when every consumer of the value is a lifetime bracket marker. -/
def onlyUsedByLifetimeMarkers (g : Graph) (i : Nat) : Bool :=
  (users g i).all (fun u => isLifetimeMarkerAt g u)

/-- True when the id is bound to an instruction value. -/
def isInstructionAt (g : Graph) (i : Nat) : Bool :=
  match lookupV g i with
  | some v => isInstructionKind v.kind
  | none => false

/-- A non-lifetime intrinsic call, which is never trivial. -/
def isNonLifetimeIntrinsic (v : Value) : Bool :=
  match v.kind with
  | .intrinsic .lifetime_start _ => false
  | .intrinsic .lifetime_end _ => false
  | .intrinsic _ _ => true
  | _ => false

/-- True when the id is bound to a stack allocation (isa AllocaInst). -/
def isAllocaAt (g : Graph) (i : Nat) : Bool :=
  match lookupV g i with
  | some v => match v.kind with | .alloca => true | _ => false
  | _ => false

/-- Modelled from the spec: the storage-identity resolver (spec section
4.1), standing for GetUnderlyingObject, whose body is not among the
sources: follow pure reinterpretation and offset operations (bitcast,
gep) through their pointer operand and stop at the first value that is
not such an operation.  Fuel bounds the walk on a finite graph. -/
def resolveUnderlying (g : Graph) : Nat → Nat → Nat
  | 0, i => i
  | fuel + 1, i =>
      match lookupV g i with
      | some v =>
          match v.kind, v.ops with
          | .bitcast, o :: _ => resolveUnderlying g fuel o
          | .gep, o :: _ => resolveUnderlying g fuel o
          | _, _ => i
      | none => i

/-- The candidate collector (CtorVisitor): every call base classified as a
copy/move construction, in program order. -/
def collectCtors : Graph → List Nat
  | [] => []
  | p :: rest =>
      (if isCallBaseKind p.2.kind && isCxxCMCtorCB p.2 then [p.1] else [])
        ++ collectCtors rest

/-- Source isTrivialInstruction: a non-lifetime intrinsic is never
trivial; otherwise a destructor call is trivial, and so is a bitcast or
gep only used by lifetime markers. -/
def isTrivialInstruction (g : Graph) (i : Nat) : Bool :=
  match lookupV g i with
  | none => false
  | some v =>
      (match v.kind with
       | .intrinsic .lifetime_start _ => true
       | .intrinsic .lifetime_end _ => true
       | .intrinsic _ _ => false
       | _ => true)
      && (isCxxDtorI v
          || ((match v.kind with | .bitcast => true | .gep => true | _ => false)
              && onlyUsedByLifetimeMarkers g i))

/-- Loop body of findImmediateCopiedDtors.  The II argument is the
dyn_cast of the input instruction I to IntrinsicInst; the C++ declares it
in the middle of the else-if chain, so in the final branch it is in scope
and necessarily null, and the dereference there is undefined behaviour,
reported as crashed. -/
def findDtorsGo (g : Graph) (II : Option IntrinsicID) :
    List Nat → List Nat → Outcome (List Nat)
  | [], acc => .done acc
  | u :: us, acc =>
      match lookupV g u with
      | none => findDtorsGo g II us acc
      | some dv =>
          if isInstructionKind dv.kind then
            if isCxxDtorI dv then findDtorsGo g II us (acc ++ [u])
            else
              match II with
              | some iid =>
                  if iid = .lifetime_end then findDtorsGo g II us (acc ++ [u])
                  else findDtorsGo g II us acc
              | none =>
                  if (match dv.kind with | .bitcast => true | .gep => true | _ => false)
                      && decide (numUses g u = 1) then
                    match (users g u).head? with
                    | none => findDtorsGo g II us acc
                    | some w =>
                        match lookupV g w with
                        | none => findDtorsGo g II us acc
                        | some wv =>
                            match wv.kind with
                            | .intrinsic _ _ => .crashed
                            | _ =>
                                if isInstructionKind wv.kind && isCxxDtorI wv then
                                  findDtorsGo g II us (acc ++ [u])
                                else findDtorsGo g II us acc
                  else findDtorsGo g II us acc
          else findDtorsGo g II us acc

/-- Source findImmediateCopiedDtors: walk the consumers of the given
instruction and collect the lifetime-ending instructions tied to it. -/
def findImmediateCopiedDtors (g : Graph) (i : Nat) : Outcome (List Nat) :=
  let II : Option IntrinsicID :=
    match lookupV g i with
    | some v => match v.kind with | .intrinsic iid _ => some iid | _ => none
    | none => none
  findDtorsGo g II (users g i) []

/-- The inner loop over ImmDtors in canCtorBeElided.  CanBeElided starts
false; each iteration first evaluates the assert that the constructor
reaches the destructor (tracked in the second component), then sets
CanBeElided to reachability from the destructor to the user and stops
early when that fails. -/
def dtorLoopGo (r : Nat → Nat → Bool) (c u : Nat) :
    List Nat → Bool → Bool → Bool × Bool
  | [], canBe, aok => (canBe, aok)
  | d :: rest, _, aok =>
      let aok2 := aok && r c d
      if r d u then dtorLoopGo r c u rest (r d u) aok2 else (false, aok2)

/-- The loop over the consumers of the source allocation in
canCtorBeElided: a non-instruction consumer rejects, the candidate itself
is skipped, a trivial consumer and its own consumers are recorded for
later erasure, and any other consumer reachable from the constructor must
pass the destructor-reachability loop. -/
def userLoopGo (g : Graph) (r : Nat → Nat → Bool) (c : Nat) (ds : List Nat) :
    List Nat → List Nat → Bool → Option (List Nat) × Bool
  | [], acc, aok => (some acc, aok)
  | u :: us, acc, aok =>
      match lookupV g u with
      | none => (none, aok)
      | some uv =>
          if isInstructionKind uv.kind then
            if u = c then userLoopGo g r c ds us acc aok
            else if isTrivialInstruction g u then
              userLoopGo g r c ds us (acc ++ u :: users g u) aok
            else if r c u then
              if (dtorLoopGo r c u ds false aok).1 then
                userLoopGo g r c ds us acc (dtorLoopGo r c u ds false aok).2
              else (none, (dtorLoopGo r c u ds false aok).2)
            else userLoopGo g r c ds us acc aok
          else (none, aok)

/-- The rewrite plan computed by a successful legality check. -/
structure Plan where
  From : Nat
  To : Nat
  dead : List Nat
deriving DecidableEq

/-- Source canCtorBeElided.  Returns the rejection or the computed plan,
together with the conjunction of every assert evaluated on the way (true
when no assert fired).  A candidate with fewer than two operands is an
out-of-range operand access of the source, reported as crashed. -/
def canCtorBeElided (g : Graph) (r : Nat → Nat → Bool) (c : Nat) :
    Outcome (Option Plan × Bool) :=
  match lookupV g c with
  | none => .crashed
  | some ctor =>
      match ctor.ops[0]?, ctor.ops[1]? with
      | some o0, some o1 =>
          let allocTo := resolveUnderlying g g.length o0
          let allocFrom := resolveUnderlying g g.length o1
          if isAllocaAt g allocTo && isAllocaAt g allocFrom then
            match findImmediateCopiedDtors g o1 with
            | .crashed => .crashed
            | .done ds =>
                match userLoopGo g r c ds (users g allocFrom) [] true with
                | (none, aok) => .done (none, aok)
                | (some l, aok) => .done (some ⟨allocFrom, allocTo, l⟩, aok)
          else .done (none, true)
      | _, _ => .crashed

/-- Erase one instruction from the graph (eraseFromParent). -/
def erase (g : Graph) (i : Nat) : Graph :=
  g.filter (fun p => decide (p.1 ≠ i))

/-- Erase a set of instructions at once; used to describe intermediate
states of the erasure loop. -/
def eraseMany (g : Graph) (s : List Nat) : Graph :=
  g.filter (fun p => decide (p.1 ∉ s))

/-- The erasure loop of runOnFunction: pop each listed instruction in
order, record whether it had zero remaining uses at that moment (the
assert of the source), and erase it. -/
def eraseList : Graph → List Nat → Graph × Bool
  | g, [] => (g, true)
  | g, i :: rest =>
      let ok := decide (numUses g i = 0)
      let res := eraseList (erase g i) rest
      (res.1, ok && res.2)

/-- replaceAllUsesWith: redirect every use of a to b. -/
def rauw (g : Graph) (a b : Nat) : Graph :=
  g.map (fun p => (p.1, ⟨p.2.kind, p.2.ops.map (fun o => if o = a then b else o)⟩))

/-- Applying an accepted plan, as in runOnFunction: push the candidate on
the dead list and pop the stack (the candidate first, then the recorded
trivial instructions innermost consumers first), then redirect the
remaining uses of From to To, then erase From when it has no uses left.
The boolean records that every erased instruction had zero uses at the
moment of erasure. -/
def applyElision (g : Graph) (p : Plan) (c : Nat) : Graph × Bool :=
  let res := eraseList g (c :: p.dead.reverse)
  let g2 := rauw res.1 p.From p.To
  (if numUses g2 p.From = 0 then erase g2 p.From else g2, res.2)

/-- The candidate loop of runOnFunction over the pre-collected candidate
list: each accepted candidate is applied immediately; the second
component reports whether any candidate was applied, the third whether
every evaluated assert held. -/
def runCandidates (r : Nat → Nat → Bool) :
    Graph → Bool → Bool → List Nat → Outcome (Graph × Bool × Bool)
  | g, ch, aok, [] => .done (g, ch, aok)
  | g, ch, aok, c :: cs =>
      match canCtorBeElided g r c with
      | .crashed => .crashed
      | .done (none, a) => runCandidates r g ch (aok && a) cs
      | .done (some p, a) =>
          let ae := applyElision g p c
          runCandidates r ae.1 true (aok && a && ae.2) cs

/-- Source runOnFunction: collect the candidates once, then run the
candidate loop starting from an unchanged graph. -/
def runOnFunction (r : Nat → Nat → Bool) (g : Graph) :
    Outcome (Graph × Bool × Bool) :=
  runCandidates r g false true (collectCtors g)

/-- The dead instructions recorded by the consumer loop for a given
consumer list: each trivial consumer other than the candidate, followed
by its own consumers. -/
def deadOf (g : Graph) (c : Nat) : List Nat → List Nat
  | [] => []
  | u :: us =>
      (if u = c then []
       else if isTrivialInstruction g u then u :: users g u else [])
        ++ deadOf g c us

/-- The acceptance condition for one consumer of the source allocation,
used to characterise the consumer loop: the consumer is an instruction,
and it is the candidate itself, or trivial, or not reachable from the
candidate, or the immediate-destructor list is non-empty and every listed
destructor reaches it. -/
def userPassP (g : Graph) (r : Nat → Nat → Bool) (c : Nat) (ds : List Nat)
    (u : Nat) : Prop :=
  isInstructionAt g u = true ∧
    (u = c ∨ isTrivialInstruction g u = true ∨ r c u = false ∨
      (ds ≠ [] ∧ ∀ d ∈ ds, r d u = true))

/-- An erasure order is good after the set s is already gone when each
listed instruction has all of its consumers among s and the instructions
listed before it. -/
def goodOrder (g : Graph) : List Nat → List Nat → Prop
  | _, [] => True
  | s, x :: rest => (∀ w ∈ users g x, w ∈ s) ∧ goodOrder g (x :: s) rest

/- Concrete functions used to evaluate the pass on specific inputs. -/

/-- Straight-line reachability: a strictly later instruction id. -/
def reachLt (x y : Nat) : Bool := decide (x < y)

/-- Straight-line function: a = alloca, b = alloca, construct b from a,
destroy a, then an ordinary use of b. -/
def exStraight : Graph :=
  [(0, ⟨.alloca, []⟩), (1, ⟨.alloca, []⟩), (2, ⟨.call true, [1, 0]⟩),
   (3, ⟨.call true, [0]⟩), (4, ⟨.otherInst, [1]⟩)]

/-- Function with a constructed copy but no lifetime end of the source at
all: construct b from a, then an ordinary use of a. -/
def exNoDtor : Graph :=
  [(0, ⟨.alloca, []⟩), (1, ⟨.alloca, []⟩), (2, ⟨.call true, [1, 0]⟩),
   (3, ⟨.otherInst, [0]⟩)]

/-- Function holding a lifetime end marker of a, and a bitcast of a whose
only consumer is a destructor call. -/
def exMarkers : Graph :=
  [(0, ⟨.alloca, []⟩), (1, ⟨.intrinsic .lifetime_end false, [0]⟩),
   (2, ⟨.bitcast, [0]⟩), (3, ⟨.call true, [2]⟩)]

/-- Function where the only consumer of a is a lifetime end marker. -/
def exLifeEndUse : Graph :=
  [(0, ⟨.alloca, []⟩), (1, ⟨.intrinsic .lifetime_end false, [0]⟩)]

/-- Function where a bitcast of a has a lifetime end marker as its single
consumer. -/
def exBitcastLifeEnd : Graph :=
  [(0, ⟨.alloca, []⟩), (1, ⟨.bitcast, [0]⟩),
   (2, ⟨.intrinsic .lifetime_end false, [1]⟩)]

/-- Branching function: after the allocas the flow forks; one arm holds
the construction of b from a followed by a destructor of a, the other arm
holds its own destructor of a, and both arms join before an ordinary use
of a. -/
def exBranch : Graph :=
  [(0, ⟨.alloca, []⟩), (1, ⟨.alloca, []⟩), (2, ⟨.call true, [1, 0]⟩),
   (3, ⟨.call true, [0]⟩), (4, ⟨.call true, [0]⟩), (5, ⟨.otherInst, [0]⟩)]

/-- Reachability of exBranch: 2 and 3 form one arm, 4 the other, 5 the
join; the constructor cannot reach the destructor of the sibling arm. -/
def reachBranch (x y : Nat) : Bool :=
  decide ((x = 2 ∧ y = 3) ∨ (x = 2 ∧ y = 5) ∨ (x = 3 ∧ y = 5) ∨ (x = 4 ∧ y = 5))

/- Helper lemmas about uses and erasure. -/

theorem mem_users {g : Graph} {x w : Nat} :
    w ∈ users g x ↔ ∃ v, (w, v) ∈ g ∧ x ∈ v.ops := by
  induction g with
  | nil => simp [users]
  | cons p rest ih =>
      obtain ⟨a, b⟩ := p
      simp only [users, List.mem_append, List.mem_replicate, ih, List.mem_cons]
      constructor
      · rintro (⟨hn, rfl⟩ | ⟨v, hv, hx⟩)
        · refine ⟨b, Or.inl rfl, ?_⟩
          have hne : b.ops.filter (fun o => o == x) ≠ [] := by
            intro hnil
            rw [hnil] at hn
            exact hn rfl
          obtain ⟨o, ho⟩ := List.exists_mem_of_ne_nil _ hne
          have := List.mem_filter.mp ho
          have hox : o = x := by simpa using this.2
          exact hox ▸ this.1
        · exact ⟨v, Or.inr hv, hx⟩
      · rintro ⟨v, hv | hv, hx⟩
        · left
          injection hv with h1 h2
          subst h2
          refine ⟨?_, h1⟩
          have hmem : x ∈ v.ops.filter (fun o => o == x) :=
            List.mem_filter.mpr ⟨hx, by simp⟩
          intro hzero
          rw [List.length_eq_zero] at hzero
          rw [hzero] at hmem
          exact List.not_mem_nil _ hmem
        · exact Or.inr ⟨v, hv, hx⟩

theorem users_eraseMany_nil {g : Graph} {s : List Nat} {x : Nat}
    (h : ∀ w ∈ users g x, w ∈ s) : users (eraseMany g s) x = [] := by
  by_contra hne
  obtain ⟨w, hw⟩ := List.exists_mem_of_ne_nil _ hne
  obtain ⟨v, hv, hx⟩ := mem_users.mp hw
  have hvg : (w, v) ∈ g := List.mem_of_mem_filter hv
  have hwS : w ∈ s := h w (mem_users.mpr ⟨v, hvg, hx⟩)
  have hcond := List.of_mem_filter hv
  simp only [decide_eq_true_eq] at hcond
  exact hcond hwS

theorem eraseMany_nil (g : Graph) : eraseMany g [] = g := by
  simp [eraseMany]

theorem erase_eraseMany (g : Graph) (s : List Nat) (x : Nat) :
    erase (eraseMany g s) x = eraseMany g (x :: s) := by
  unfold erase eraseMany
  rw [List.filter_filter]
  apply List.filter_congr
  intro a _
  simp only [List.mem_cons, not_or, ← decide_not, ← Bool.decide_and]

theorem goodOrder_append {g : Graph} :
    ∀ {l1 l2 s : List Nat}, goodOrder g s l1 → goodOrder g (l1.reverse ++ s) l2 →
      goodOrder g s (l1 ++ l2) := by
  intro l1
  induction l1 with
  | nil => intro l2 s h1 h2; simpa using h2
  | cons x l1 ih =>
      intro l2 s h1 h2
      obtain ⟨hx, h1r⟩ := h1
      refine ⟨hx, ih h1r ?_⟩
      rw [List.reverse_cons, List.append_assoc] at h2
      exact h2

theorem goodOrder_of_all_empty {g : Graph} :
    ∀ {l s : List Nat}, (∀ x ∈ l, users g x = []) → goodOrder g s l := by
  intro l
  induction l with
  | nil => intro s _; trivial
  | cons x l ih =>
      intro s h
      refine ⟨?_, ih fun y hy => h y (List.mem_cons_of_mem _ hy)⟩
      rw [h x (List.mem_cons_self _ _)]
      intro w hw
      exact absurd hw (List.not_mem_nil _)

theorem goodOrder_group {g : Graph} {u : Nat}
    (hu : ∀ w ∈ users g u, users g w = []) (s : List Nat) :
    goodOrder g s ((users g u).reverse ++ [u]) := by
  apply goodOrder_append
  · exact goodOrder_of_all_empty fun x hx => hu x (List.mem_reverse.mp hx)
  · rw [List.reverse_reverse]
    exact ⟨fun w hw => List.mem_append_left _ hw, trivial⟩

theorem goodOrder_deadOf {g : Graph} {c : Nat} :
    ∀ {us : List Nat},
      (∀ u ∈ us, isTrivialInstruction g u = true → ∀ w ∈ users g u, users g w = []) →
      ∀ s, goodOrder g s (deadOf g c us).reverse := by
  intro us
  induction us with
  | nil => intro _ s; trivial
  | cons u us ih =>
      intro h s
      have hrest : ∀ u2 ∈ us, isTrivialInstruction g u2 = true →
          ∀ w ∈ users g u2, users g w = [] :=
        fun u2 hu2 => h u2 (List.mem_cons_of_mem _ hu2)
      show goodOrder g s ((deadOf g c (u :: us))).reverse
      rw [deadOf, List.reverse_append]
      apply goodOrder_append
      · exact ih hrest s
      · by_cases hc : u = c
        · rw [if_pos hc, List.reverse_nil]
          trivial
        · by_cases ht : isTrivialInstruction g u = true
          · rw [if_neg hc, if_pos ht, List.reverse_cons]
            exact goodOrder_group (h u (List.mem_cons_self _ _) ht) _
          · rw [if_neg hc, if_neg ht, List.reverse_nil]
            trivial

theorem eraseList_ok_of_goodOrder {g : Graph} :
    ∀ {ord s : List Nat}, goodOrder g s ord → (eraseList (eraseMany g s) ord).2 = true := by
  intro ord
  induction ord with
  | nil => intro s _; rfl
  | cons x rest ih =>
      intro s h
      obtain ⟨hx, hrest⟩ := h
      have husers : users (eraseMany g s) x = [] := users_eraseMany_nil hx
      have hnum : numUses (eraseMany g s) x = 0 := by
        rw [numUses, husers]; rfl
      show (eraseList (eraseMany g s) (x :: rest)).2 = true
      rw [eraseList]
      simp only [hnum, decide_True, Bool.true_and]
      rw [erase_eraseMany]
      exact ih hrest

/- Characterisations of the loops of the legality check. -/

theorem dtorLoopGo_cons_iff {r : Nat → Nat → Bool} {c u : Nat} :
    ∀ {ds : List Nat} (d : Nat) {b aok : Bool},
      (dtorLoopGo r c u (d :: ds) b aok).1 = true ↔ ∀ e ∈ d :: ds, r e u = true := by
  intro ds
  induction ds with
  | nil =>
      intro d b aok
      by_cases h : r d u
      · simp [dtorLoopGo, h]
      · simp [dtorLoopGo, h]
  | cons d2 ds ih =>
      intro d b aok
      show (if r d u = true then dtorLoopGo r c u (d2 :: ds) (r d u) (aok && r c d)
            else (false, aok && r c d)).1 = true ↔ ∀ e ∈ d :: d2 :: ds, r e u = true
      by_cases h : r d u
      · rw [if_pos h, ih d2]
        simp [List.forall_mem_cons, h]
      · rw [if_neg h]
        simp only [List.forall_mem_cons]
        constructor
        · intro hfalse; exact absurd hfalse (by simp)
        · rintro ⟨hd, -⟩; exact absurd hd h

theorem dtorLoopGo_accept {r : Nat → Nat → Bool} {c u : Nat} {ds : List Nat}
    {aok : Bool} :
    (dtorLoopGo r c u ds false aok).1 = true ↔
      (ds ≠ [] ∧ ∀ d ∈ ds, r d u = true) := by
  cases ds with
  | nil => simp [dtorLoopGo]
  | cons d ds => rw [dtorLoopGo_cons_iff d]; simp

theorem userLoopGo_some_iff {g : Graph} {r : Nat → Nat → Bool} {c : Nat}
    {ds : List Nat} :
    ∀ {us : List Nat} (acc : List Nat) (aok : Bool),
      ((userLoopGo g r c ds us acc aok).1).isSome = true ↔
        ∀ u ∈ us, userPassP g r c ds u := by
  intro us
  induction us with
  | nil => intro acc aok; simp [userLoopGo]
  | cons u us ih =>
      intro acc aok
      rw [List.forall_mem_cons]
      simp only [userLoopGo]
      split
      next hl =>
        simp only [Option.isSome_none, Bool.false_eq_true, false_iff]
        rintro ⟨⟨hinstr, -⟩, -⟩
        rw [isInstructionAt, hl] at hinstr
        exact absurd hinstr (by simp)
      next uv hl =>
        split_ifs with hik hc ht hr hd
        · rw [ih]
          have hthis : userPassP g r c ds u :=
            ⟨by rw [isInstructionAt, hl]; exact hik, Or.inl hc⟩
          exact ⟨fun hall => ⟨hthis, hall⟩, fun hall => hall.2⟩
        · rw [ih]
          have hthis : userPassP g r c ds u :=
            ⟨by rw [isInstructionAt, hl]; exact hik, Or.inr (Or.inl ht)⟩
          exact ⟨fun hall => ⟨hthis, hall⟩, fun hall => hall.2⟩
        · rw [ih]
          have hthis : userPassP g r c ds u :=
            ⟨by rw [isInstructionAt, hl]; exact hik,
             Or.inr (Or.inr (Or.inr (dtorLoopGo_accept.mp hd)))⟩
          exact ⟨fun hall => ⟨hthis, hall⟩, fun hall => hall.2⟩
        · simp only [Option.isSome_none, Bool.false_eq_true, false_iff]
          rintro ⟨⟨-, hpass⟩, -⟩
          rcases hpass with hceq | htriv | hrf | hds
          · exact hc hceq
          · exact ht htriv
          · rw [hr] at hrf; exact absurd hrf (by simp)
          · exact hd (dtorLoopGo_accept.mpr hds)
        · rw [ih]
          have hthis : userPassP g r c ds u :=
            ⟨by rw [isInstructionAt, hl]; exact hik,
             Or.inr (Or.inr (Or.inl (by simpa using hr)))⟩
          exact ⟨fun hall => ⟨hthis, hall⟩, fun hall => hall.2⟩
        · simp only [Option.isSome_none, Bool.false_eq_true, false_iff]
          rintro ⟨⟨hinstr, -⟩, -⟩
          rw [isInstructionAt, hl] at hinstr
          exact hik hinstr

theorem userLoopGo_dead {g : Graph} {r : Nat → Nat → Bool} {c : Nat}
    {ds : List Nat} :
    ∀ {us acc : List Nat} {aok : Bool} {l : List Nat} {a2 : Bool},
      userLoopGo g r c ds us acc aok = (some l, a2) → l = acc ++ deadOf g c us := by
  intro us
  induction us with
  | nil =>
      intro acc aok l a2 h
      simp only [userLoopGo] at h
      injection h with h1 h2
      injection h1 with h1
      simp [deadOf, ← h1]
  | cons u us ih =>
      intro acc aok l a2 h
      simp only [userLoopGo] at h
      split at h
      next hl => exact absurd h (by simp)
      next uv hl =>
        split_ifs at h with hik hc ht hr hd
        · rw [ih h, deadOf, if_pos hc]
          simp
        · rw [ih h, deadOf, if_neg hc, if_pos ht]
          simp
        · rw [ih h, deadOf, if_neg hc, if_neg ht]
          simp
        · exact absurd h (by simp)
        · rw [ih h, deadOf, if_neg hc, if_neg ht]
          simp
        · exact absurd h (by simp)

theorem canCtorBeElided_accept_iff {g : Graph} {r : Nat → Nat → Bool} {c : Nat}
    {ctor : Value} {o0 o1 : Nat} {ds : List Nat}
    (hc : lookupV g c = some ctor) (h0 : ctor.ops[0]? = some o0)
    (h1 : ctor.ops[1]? = some o1)
    (hT : isAllocaAt g (resolveUnderlying g g.length o0) = true)
    (hF : isAllocaAt g (resolveUnderlying g g.length o1) = true)
    (hD : findImmediateCopiedDtors g o1 = .done ds) :
    (∃ p a, canCtorBeElided g r c = .done (some p, a)) ↔
      ∀ u ∈ users g (resolveUnderlying g g.length o1), userPassP g r c ds u := by
  rw [← userLoopGo_some_iff [] true]
  simp only [canCtorBeElided, hc, h0, h1, hT, hF, hD, Bool.and_self, if_true]
  cases hul : userLoopGo g r c ds (users g (resolveUnderlying g g.length o1)) [] true with
  | mk o a2 =>
      cases o with
      | none => simp
      | some l => simp

theorem canCtorBeElided_some_spec {g : Graph} {r : Nat → Nat → Bool} {c : Nat}
    {p : Plan} {a : Bool} (h : canCtorBeElided g r c = .done (some p, a)) :
    ∃ ctor o0 o1 ds,
      lookupV g c = some ctor ∧ ctor.ops[0]? = some o0 ∧ ctor.ops[1]? = some o1 ∧
      isAllocaAt g (resolveUnderlying g g.length o0) = true ∧
      isAllocaAt g (resolveUnderlying g g.length o1) = true ∧
      findImmediateCopiedDtors g o1 = .done ds ∧
      p = ⟨resolveUnderlying g g.length o1, resolveUnderlying g g.length o0,
           deadOf g c (users g (resolveUnderlying g g.length o1))⟩ := by
  simp only [canCtorBeElided] at h
  split at h
  · exact absurd h (by simp)
  next ctor hc =>
    split at h
    next o0 o1 h0 h1 =>
      split at h
      next halloc =>
        obtain ⟨hT, hF⟩ := Bool.and_eq_true .. |>.mp halloc
        split at h
        · exact absurd h (by simp)
        next ds hD =>
          split at h
          next aok hul => exact absurd h (by simp)
          next l aok hul =>
              refine ⟨ctor, o0, o1, ds, hc, h0, h1, hT, hF, hD, ?_⟩
              have hinj := h
              simp only [Outcome.done.injEq, Prod.mk.injEq, Option.some.injEq] at hinj
              rw [← hinj.1]
              have hdead := userLoopGo_dead hul
              simp only [List.nil_append] at hdead
              rw [hdead]
      next halloc => exact absurd h (by simp)
    next h01 => exact absurd h (by simp)

theorem runCandidates_true_ch {r : Nat → Nat → Bool} :
    ∀ {cs : List Nat} {g : Graph} {aok : Bool} {g2 : Graph} {ch a : Bool},
      runCandidates r g true aok cs = .done (g2, ch, a) → ch = true := by
  intro cs
  induction cs with
  | nil =>
      intro g aok g2 ch a h
      simp only [runCandidates, Outcome.done.injEq, Prod.mk.injEq] at h
      exact h.2.1.symm
  | cons c cs ih =>
      intro g aok g2 ch a h
      simp only [runCandidates] at h
      split at h
      · exact absurd h (by simp)
      · exact ih h
      · exact ih h

theorem runCandidates_all_rejected {r : Nat → Nat → Bool} :
    ∀ {cs : List Nat} {g : Graph},
      (∀ c ∈ cs, ∃ a2, canCtorBeElided g r c = .done (none, a2)) →
      ∀ aok, ∃ a3, runCandidates r g false aok cs = .done (g, false, a3) := by
  intro cs
  induction cs with
  | nil => intro g _ aok; exact ⟨aok, rfl⟩
  | cons c cs ih =>
      intro g h aok
      obtain ⟨a2, h2⟩ := h c (List.mem_cons_self _ _)
      obtain ⟨a3, h3⟩ := ih (fun c2 hc2 => h c2 (List.mem_cons_of_mem _ hc2)) (aok && a2)
      refine ⟨a3, ?_⟩
      simp only [runCandidates, h2]
      exact h3

theorem runCandidates_false_inv {r : Nat → Nat → Bool} :
    ∀ {cs : List Nat} {g : Graph} {aok : Bool} {g2 : Graph} {a : Bool},
      runCandidates r g false aok cs = .done (g2, false, a) →
      g2 = g ∧ ∀ c ∈ cs, ∃ a2, canCtorBeElided g r c = .done (none, a2) := by
  intro cs
  induction cs with
  | nil =>
      intro g aok g2 a h
      simp only [runCandidates, Outcome.done.injEq, Prod.mk.injEq] at h
      exact ⟨h.1.symm, by simp⟩
  | cons c cs ih =>
      intro g aok g2 a h
      simp only [runCandidates] at h
      split at h
      · exact absurd h (by simp)
      next a2 heq =>
          obtain ⟨hg, hrest⟩ := ih h
          refine ⟨hg, ?_⟩
          intro c2 hc2
          rcases List.mem_cons.mp hc2 with rfl | hc2
          · exact ⟨a2, heq⟩
          · exact hrest c2 hc2
      next p a2 heq =>
          exact absurd (runCandidates_true_ch h) (by simp)

theorem mem_collectCtors {g : Graph} {i : Nat} :
    i ∈ collectCtors g ↔
      ∃ w, (i, w) ∈ g ∧ isCallBaseKind w.kind = true ∧
        isCxxCMCtorOrDtorTag w = true ∧ w.ops.length = 2 := by
  induction g with
  | nil => simp [collectCtors]
  | cons p rest ih =>
      obtain ⟨a, b⟩ := p
      simp only [collectCtors, List.mem_append, ih, List.mem_cons]
      by_cases hb : (isCallBaseKind b.kind && isCxxCMCtorCB b) = true
      · rw [if_pos hb]
        have hb' : isCallBaseKind b.kind = true ∧ isCxxCMCtorOrDtorTag b = true ∧
            b.ops.length = 2 := by
          simpa [isCxxCMCtorCB, Bool.and_eq_true, and_assoc] using hb
        simp only [List.mem_singleton]
        constructor
        · rintro (rfl | ⟨w, hw, hq⟩)
          · exact ⟨b, Or.inl rfl, hb'⟩
          · exact ⟨w, Or.inr hw, hq⟩
        · rintro ⟨w, hw | hw, hq⟩
          · injection hw with h1 h2
            exact Or.inl h1
          · exact Or.inr ⟨w, hw, hq⟩
      · rw [if_neg hb]
        simp only [List.not_mem_nil, false_or]
        constructor
        · rintro ⟨w, hw, hq⟩
          exact ⟨w, Or.inr hw, hq⟩
        · rintro ⟨w, hw | hw, hq⟩
          · injection hw with h1 h2
            subst h2
            exact absurd
              (by simp [isCxxCMCtorCB, hq.1, hq.2.1, hq.2.2] :
                (isCallBaseKind w.kind && isCxxCMCtorCB w) = true) hb
          · exact ⟨w, hw, hq⟩

/- Claim theorems. -/

/-- C1, counterexample: on exNoDtor the candidate construction at id 2
has both operands resolving to stack allocations, the immediate
destructor list is empty, and the only other consumer of the source
allocation (the instruction at id 3) is a non-trivial instruction that
the candidate reaches and that is vacuously reachable from every listed
destructor; the claim as stated therefore predicts acceptance, but the
legality check rejects. -/
theorem c1_empty_dtor_list_counterexample :
    isAllocaAt exNoDtor (resolveUnderlying exNoDtor exNoDtor.length 1) = true ∧
    isAllocaAt exNoDtor (resolveUnderlying exNoDtor exNoDtor.length 0) = true ∧
    findImmediateCopiedDtors exNoDtor 0 = .done [] ∧
    users exNoDtor 0 = [2, 3] ∧
    isInstructionAt exNoDtor 3 = true ∧
    isTrivialInstruction exNoDtor 3 = false ∧
    reachLt 2 3 = true ∧
    (∀ d ∈ ([] : List Nat), reachLt d 3 = true) ∧
    canCtorBeElided exNoDtor reachLt 2 = .done (none, true) := by decide

/-- C1, amended: for a candidate whose operands both resolve to stack
allocations and whose immediate destructor computation succeeds, the
legality check accepts exactly when every consumer of the source
allocation is an instruction and is the candidate itself, or trivial, or
not reachable from the candidate, or the immediate-destructor list is
non-empty and every listed destructor reaches the consumer; in
particular a reachable non-trivial consumer is rejected whenever some
listed destructor cannot reach it, and also whenever the list is empty. -/
theorem c1_user_acceptance_amended {g : Graph} {r : Nat → Nat → Bool} {c : Nat}
    {ctor : Value} {o0 o1 : Nat} {ds : List Nat}
    (hc : lookupV g c = some ctor) (h0 : ctor.ops[0]? = some o0)
    (h1 : ctor.ops[1]? = some o1)
    (hT : isAllocaAt g (resolveUnderlying g g.length o0) = true)
    (hF : isAllocaAt g (resolveUnderlying g g.length o1) = true)
    (hD : findImmediateCopiedDtors g o1 = .done ds) :
    (∃ p a, canCtorBeElided g r c = .done (some p, a)) ↔
      ∀ u ∈ users g (resolveUnderlying g g.length o1),
        isInstructionAt g u = true ∧
          (u = c ∨ isTrivialInstruction g u = true ∨ r c u = false ∨
            (ds ≠ [] ∧ ∀ d ∈ ds, r d u = true)) :=
  canCtorBeElided_accept_iff hc h0 h1 hT hF hD

theorem c1_user_acceptance_amended_witness :
    ∃ p a, canCtorBeElided exStraight reachLt 2 = .done (some p, a) :=
  (c1_user_acceptance_amended (r := reachLt)
      (rfl : lookupV exStraight 2 = some ⟨.call true, [1, 0]⟩)
      (rfl : (⟨.call true, [1, 0]⟩ : Value).ops[0]? = some 1)
      (rfl : (⟨.call true, [1, 0]⟩ : Value).ops[1]? = some 0)
      rfl rfl
      (rfl : findImmediateCopiedDtors exStraight 0 = .done [3])).mpr (by decide)

/-- C2, counterexample: on exMarkers a lifetime end marker itself (id 1)
is not classified trivial, and a bitcast (id 2) whose only consumer is a
destructor call (id 3, itself trivial) is not classified trivial either;
the claim as stated predicts true in both cases. -/
theorem c2_lifetime_marker_counterexample :
    isLifetimeMarkerAt exMarkers 1 = true ∧
    isTrivialInstruction exMarkers 1 = false ∧
    lookupV exMarkers 2 = some ⟨.bitcast, [0]⟩ ∧
    users exMarkers 2 = [3] ∧
    isTrivialInstruction exMarkers 3 = true ∧
    isTrivialInstruction exMarkers 2 = false := by decide

/-- C2, amended: an instruction is trivial exactly when it is not a
non-lifetime intrinsic call and is either a destructor call (the shared
tag with exactly one object argument on a call base) or a bitcast or
offset operation all of whose direct consumers are lifetime bracket
markers; the consumer condition is one level deep and admits only
lifetime markers, so neither a lifetime marker itself nor a
reinterpretation feeding a destructor is trivial. -/
theorem c2_trivial_characterisation {g : Graph} {i : Nat} {v : Value}
    (h : lookupV g i = some v) :
    isTrivialInstruction g i = true ↔
      (isNonLifetimeIntrinsic v = false ∧
        ((isCallBaseKind v.kind = true ∧ isCxxCMCtorOrDtorTag v = true ∧
            v.ops.length = 1) ∨
         ((v.kind = .bitcast ∨ v.kind = .gep) ∧
           ∀ u ∈ users g i, isLifetimeMarkerAt g u = true))) := by
  simp only [isTrivialInstruction, h]
  obtain ⟨k, ops⟩ := v
  cases k with
  | intrinsic iid t =>
      cases iid <;>
        simp [isCxxDtorI, isCxxDtorCB, isCxxCMCtorOrDtorTag, isCallBaseKind,
          isNonLifetimeIntrinsic, and_assoc]
  | bitcast =>
      simp [isCxxDtorI, isCxxDtorCB, isCxxCMCtorOrDtorTag, isCallBaseKind,
        isNonLifetimeIntrinsic, onlyUsedByLifetimeMarkers, List.all_eq_true]
  | gep =>
      simp [isCxxDtorI, isCxxDtorCB, isCxxCMCtorOrDtorTag, isCallBaseKind,
        isNonLifetimeIntrinsic, onlyUsedByLifetimeMarkers, List.all_eq_true]
  | alloca =>
      simp [isCxxDtorI, isCxxDtorCB, isCxxCMCtorOrDtorTag, isCallBaseKind,
        isNonLifetimeIntrinsic]
  | call t =>
      simp [isCxxDtorI, isCxxDtorCB, isCxxCMCtorOrDtorTag, isCallBaseKind,
        isNonLifetimeIntrinsic, and_assoc]
  | otherInst =>
      simp [isCxxDtorI, isCxxDtorCB, isCxxCMCtorOrDtorTag, isCallBaseKind,
        isNonLifetimeIntrinsic]
  | argument =>
      simp [isCxxDtorI, isCxxDtorCB, isCxxCMCtorOrDtorTag, isCallBaseKind,
        isNonLifetimeIntrinsic]
  | globalVar =>
      simp [isCxxDtorI, isCxxDtorCB, isCxxCMCtorOrDtorTag, isCallBaseKind,
        isNonLifetimeIntrinsic]
  | constantVal =>
      simp [isCxxDtorI, isCxxDtorCB, isCxxCMCtorOrDtorTag, isCallBaseKind,
        isNonLifetimeIntrinsic]

theorem c2_trivial_characterisation_witness :
    isTrivialInstruction exStraight 3 = true :=
  (c2_trivial_characterisation
      (rfl : lookupV exStraight 3 = some ⟨.call true, [0]⟩)).mpr (by decide)

/-- C3, code evaluation at the failing inputs: on exLifeEndUse the only
consumer of the allocation is a lifetime end marker, yet
findImmediateCopiedDtors returns the empty list because the misdirected
intrinsic test inspects the input instruction instead of the consumer;
and on exBitcastLifeEnd, where a bitcast consumer has a lifetime end
marker as its single further consumer, the walk dereferences the null
intrinsic pointer and crashes instead of collecting the bitcast. -/
theorem c3_missing_lifetime_end_consumer :
    users exLifeEndUse 0 = [1] ∧
    isLifetimeMarkerAt exLifeEndUse 1 = true ∧
    findImmediateCopiedDtors exLifeEndUse 0 = .done [] ∧
    users exBitcastLifeEnd 0 = [1] ∧
    lookupV exBitcastLifeEnd 1 = some ⟨.bitcast, [0]⟩ ∧
    users exBitcastLifeEnd 1 = [2] ∧
    isLifetimeMarkerAt exBitcastLifeEnd 2 = true ∧
    findImmediateCopiedDtors exBitcastLifeEnd 0 = .crashed := by decide

/-- C4: the collector gathers exactly the call bases carrying the shared
tag with two object arguments; an instruction is a destructor call
exactly when it is a call base carrying the shared tag with one object
argument; and a tagged one-argument call base is classified destruct and
never copy/move-construct, the tag being shared. -/
theorem c4_classifier (g : Graph) (i : Nat) (v : Value) :
    ((i ∈ collectCtors g) ↔
      ∃ w, (i, w) ∈ g ∧ isCallBaseKind w.kind = true ∧
        isCxxCMCtorOrDtorTag w = true ∧ w.ops.length = 2) ∧
    (isCxxDtorI v = true ↔
      (isCallBaseKind v.kind = true ∧ isCxxCMCtorOrDtorTag v = true ∧
        v.ops.length = 1)) ∧
    (isCallBaseKind v.kind = true → isCxxCMCtorOrDtorTag v = true →
      v.ops.length = 1 → isCxxDtorI v = true ∧ isCxxCMCtorCB v = false) := by
  refine ⟨mem_collectCtors, ?_, ?_⟩
  · simp [isCxxDtorI, isCxxDtorCB, Bool.and_eq_true, and_assoc]
  · intro hcb htag hlen
    constructor
    · simp [isCxxDtorI, isCxxDtorCB, hcb, htag, hlen]
    · simp [isCxxCMCtorCB, htag, hlen]

theorem c4_classifier_witness :
    isCxxDtorI ⟨.call true, [0]⟩ = true ∧
      isCxxCMCtorCB ⟨.call true, [0]⟩ = false :=
  (c4_classifier [] 0 ⟨.call true, [0]⟩).2.2 rfl rfl rfl

/-- C5: whenever the legality check accepts a candidate, both operands of
the candidate resolve through the storage-identity resolver to stack
allocations, and the plan binds To to the resolved destination and From
to the resolved source; a heap value, parameter or global never resolves
to an allocation, so elision is never applied to them. -/
theorem c5_requires_stack_allocations {g : Graph} {r : Nat → Nat → Bool}
    {c : Nat} {p : Plan} {a : Bool}
    (h : canCtorBeElided g r c = .done (some p, a)) :
    ∃ ctor o0 o1, lookupV g c = some ctor ∧ ctor.ops[0]? = some o0 ∧
      ctor.ops[1]? = some o1 ∧
      isAllocaAt g (resolveUnderlying g g.length o0) = true ∧
      isAllocaAt g (resolveUnderlying g g.length o1) = true ∧
      p.To = resolveUnderlying g g.length o0 ∧
      p.From = resolveUnderlying g g.length o1 := by
  obtain ⟨ctor, o0, o1, ds, hc, h0, h1, hT, hF, hD, hp⟩ := canCtorBeElided_some_spec h
  subst hp
  exact ⟨ctor, o0, o1, hc, h0, h1, hT, hF, rfl, rfl⟩

theorem c5_requires_stack_allocations_witness :
    ∃ ctor o0 o1, lookupV exStraight 2 = some ctor ∧ ctor.ops[0]? = some o0 ∧
      ctor.ops[1]? = some o1 ∧
      isAllocaAt exStraight (resolveUnderlying exStraight exStraight.length o0) = true ∧
      isAllocaAt exStraight (resolveUnderlying exStraight exStraight.length o1) = true ∧
      (⟨0, 1, [3]⟩ : Plan).To = resolveUnderlying exStraight exStraight.length o0 ∧
      (⟨0, 1, [3]⟩ : Plan).From = resolveUnderlying exStraight exStraight.length o1 :=
  c5_requires_stack_allocations
    (by decide : canCtorBeElided exStraight reachLt 2 = .done (some ⟨0, 1, [3]⟩, true))

/-- C6: applying a plan accepted by the legality check erases the
candidate first and then the recorded dead instructions, innermost
consumers first, and every erased instruction has zero remaining uses at
the moment it is erased, provided the graph is well formed in that the
candidate call has no consumers and the consumers of a trivial consumer
of the source allocation have no consumers of their own (both hold in
the intended instruction set, where such calls and markers produce no
value). -/
theorem c6_erase_only_unused {g : Graph} {r : Nat → Nat → Bool} {c : Nat}
    {p : Plan} {a : Bool}
    (hacc : canCtorBeElided g r c = .done (some p, a))
    (hctor : users g c = [])
    (htriv : ∀ u ∈ users g p.From, isTrivialInstruction g u = true →
      ∀ w ∈ users g u, users g w = []) :
    (applyElision g p c).2 = true := by
  obtain ⟨ctor, o0, o1, ds, -, -, -, -, -, -, hp⟩ := canCtorBeElided_some_spec hacc
  subst hp
  have hgood : goodOrder g []
      (c :: (deadOf g c (users g (resolveUnderlying g g.length o1))).reverse) := by
    refine ⟨?_, ?_⟩
    · rw [hctor]
      intro w hw
      exact absurd hw (List.not_mem_nil _)
    · exact goodOrder_deadOf htriv [c]
  have h := eraseList_ok_of_goodOrder hgood
  rw [eraseMany_nil] at h
  exact h

theorem c6_erase_only_unused_witness :
    (applyElision exStraight ⟨0, 1, [3]⟩ 2).2 = true :=
  c6_erase_only_unused
    (by decide : canCtorBeElided exStraight reachLt 2 = .done (some ⟨0, 1, [3]⟩, true))
    (by decide) (by decide)

/-- C7: the pass reports no change exactly when the final graph is the
input graph and every collected candidate is rejected by the legality
check on that graph; equivalently it reports a change exactly when some
candidate is accepted and applied, and a rejected candidate never
mutates the graph. -/
theorem c7_changed_iff_accepted {r : Nat → Nat → Bool} {g g2 : Graph}
    {ch a : Bool} (h : runOnFunction r g = .done (g2, ch, a)) :
    ch = false ↔
      (g2 = g ∧ ∀ c ∈ collectCtors g, ∃ a2,
        canCtorBeElided g r c = .done (none, a2)) := by
  rw [runOnFunction] at h
  constructor
  · intro hch
    subst hch
    exact runCandidates_false_inv h
  · rintro ⟨rfl, hall⟩
    obtain ⟨a3, h3⟩ := runCandidates_all_rejected hall true
    have hcomb := h.symm.trans h3
    simp only [Outcome.done.injEq, Prod.mk.injEq] at hcomb
    exact hcomb.2.1

theorem c7_changed_iff_accepted_witness :
    exNoDtor = exNoDtor ∧ ∀ c ∈ collectCtors exNoDtor, ∃ a2,
      canCtorBeElided exNoDtor reachLt c = .done (none, a2) :=
  (c7_changed_iff_accepted
    (by decide : runOnFunction reachLt exNoDtor = .done (exNoDtor, false, true))).mp rfl

/-- C8: on the straight-line function construct(b, copy of a);
destroy(a); use(b), with a and b stack allocations and no other uses of
a, the pass accepts the elision, erases the construction call, the
destructor of a and the allocation a itself, reports a change, evaluates
no failing assert, and leaves the use of b untouched. -/
theorem c8_straightline_elision :
    runOnFunction reachLt exStraight =
      .done ([(1, ⟨.alloca, []⟩), (4, ⟨.otherInst, [1]⟩)], true, true) := by decide

/-- C9: when the graph left by a first run of the pass rejects every one
of its collected candidates, a second run on that graph reports no change
and leaves the graph identical. -/
theorem c9_second_run_fixed_point {r : Nat → Nat → Bool} {g g1 : Graph}
    {ch a : Bool} (h1 : runOnFunction r g = .done (g1, ch, a))
    (h2 : ∀ c ∈ collectCtors g1, ∃ a2,
      canCtorBeElided g1 r c = .done (none, a2)) :
    ∃ a3, runOnFunction r g1 = .done (g1, false, a3) := by
  rw [runOnFunction]
  exact runCandidates_all_rejected h2 true

theorem c9_second_run_fixed_point_witness :
    ∃ a3, runOnFunction reachLt exNoDtor = .done (exNoDtor, false, a3) :=
  c9_second_run_fixed_point
    (by decide : runOnFunction reachLt exNoDtor = .done (exNoDtor, false, true))
    (by decide)

/-- C10: on the branching function exBranch the walk over the consumers
of the source operand collects the destructor of the sibling arm (id 4),
which the candidate cannot reach, and when the legality check then
examines the ordinary consumer at the join it evaluates the asserted
condition that the candidate reaches every collected destructor, which
fails: the recorded assert flag is false, refuting the claim that the
assert never fires on a well-formed function. -/
theorem c10_dtor_reach_assert_fires :
    findImmediateCopiedDtors exBranch 0 = .done [3, 4] ∧
    reachBranch 2 4 = false ∧
    canCtorBeElided exBranch reachBranch 2 = .done (some ⟨0, 1, [3, 4]⟩, false) := by
  decide

end CXXCopyElision
